import Mathlib

/-! manual-approval: label parsing and approval resolution

A shallow embedding of `src/labels.go` (`parseLabels`) together with the Go
standard-library functions it calls (`strings.TrimSpace`, `strings.Split`,
`unicode.IsSpace`), and of the approval resolution engine exercised by
`src/approval_test.go`.

Go strings are modelled as lists of Unicode code points (`List Char`), i.e.
as valid UTF-8 text.  The separator `,` and every character tested by the
code is a single code point, so splitting and trimming on code points agrees
with the byte-level Go implementation on such text.
-/

namespace ManualApproval

/-- A Go string, seen as its sequence of code points. -/
abbrev Str := List Char

/-! ## Standard library functions used by `labels.go` -/

/-- Go `unicode.IsSpace`: in Latin-1 the characters tab, newline, vertical tab,
form feed, carriage return, space, U+0085 and U+00A0; above Latin-1 the
characters with the Unicode `White_Space` property. -/
def isSpace (c : Char) : Bool :=
  let r := c.toNat
  if r ≤ 0xFF then
    r = 0x09 || r = 0x0A || r = 0x0B || r = 0x0C || r = 0x0D || r = 0x20 ||
      r = 0x85 || r = 0xA0
  else
    r = 0x1680 || (0x2000 ≤ r && r ≤ 0x200A) || r = 0x2028 || r = 0x2029 ||
      r = 0x202F || r = 0x205F || r = 0x3000

/-- Go `strings.TrimLeftFunc(s, f)`: drop the longest prefix of characters
satisfying `f`. -/
def trimLeftFunc (f : Char → Bool) : Str → Str
  | [] => []
  | c :: cs => if f c then trimLeftFunc f cs else c :: cs

/-- Go `strings.TrimRightFunc(s, f)`: drop the longest suffix of characters
satisfying `f`. -/
def trimRightFunc (f : Char → Bool) (s : Str) : Str :=
  (trimLeftFunc f s.reverse).reverse

/-- Go `strings.TrimSpace(s)`, which is `TrimFunc(s, unicode.IsSpace)`:
`TrimRightFunc(TrimLeftFunc(s, f), f)`. -/
def trimSpace (s : Str) : Str :=
  trimRightFunc isSpace (trimLeftFunc isSpace s)

/-- Go `strings.Split(s, ",")`: the substrings between the commas of `s`, in
order.  A string with `n` commas yields `n + 1` pieces; in particular
`Split("", ",")` is the one-element list `[""]`. -/
def splitComma : Str → List Str
  | [] => [[]]
  | c :: cs =>
    if c = ',' then [] :: splitComma cs
    else
      match splitComma cs with
      | [] => [[c]]
      | p :: ps => (c :: p) :: ps

/-- Go `strings.Join(elems, ",")`: the elements separated by single commas. -/
def joinComma : List Str → Str
  | [] => []
  | [a] => a
  | a :: b :: rest => a ++ ',' :: joinComma (b :: rest)

/-! ## `labels.go` -/

/-- One iteration of the `for _, label := range rawLabels` loop of
`parseLabels`: append the trimmed label when it is not empty. -/
def parseLabelsStep (labels : List Str) (label : Str) : List Str :=
  let trimmed := trimSpace label
  if trimmed ≠ [] then labels ++ [trimmed] else labels

/-- The function `parseLabels` of `src/labels.go`. -/
def parseLabels (labelsRaw : Str) : List Str :=
  if trimSpace labelsRaw = [] then
    []
  else
    let rawLabels := splitComma labelsRaw
    rawLabels.foldl parseLabelsStep []

/-- The split-trim-filter loop of `parseLabels` without the initial
`TrimSpace(labelsRaw) == ""` guard. -/
def parseLabelsLoop (labelsRaw : Str) : List Str :=
  (splitComma labelsRaw).foldl parseLabelsStep []

/-- The label list as the specification words it: split at every comma, trim
leading and trailing whitespace from each piece, keep the non-empty trimmed
pieces in their original order.  Splitting is the library `List.splitOn`, and
trimming drops whitespace from both ends with the library `dropWhile` and
`rdropWhile`. -/
def specParseLabels (s : Str) : List Str :=
  ((s.splitOn ',').map (fun piece => (piece.dropWhile isSpace).rdropWhile isSpace)).filter
    (fun piece => decide (piece ≠ []))

/-- A label in canonical form: not empty, without a comma, and with neither a
leading nor a trailing whitespace character. -/
def CleanLabel (l : Str) : Prop :=
  l ≠ [] ∧ ',' ∉ l ∧ (∀ c ∈ l.head?, isSpace c = false) ∧
    (∀ c ∈ l.getLast?, isSpace c = false)

instance decidableCleanLabel (l : Str) : Decidable (CleanLabel l) := by
  unfold CleanLabel
  infer_instance

/-- A padded label: whitespace-only padding `before`, the label, and
whitespace-only padding `after`. -/
structure Padded where
  before : Str
  label : Str
  after : Str

/-- The text of a padded label. -/
def Padded.text (p : Padded) : Str := p.before ++ p.label ++ p.after

/-! ## Approval resolution engine

The file `approval.go` defining `isApproved`, `isDenied` and
`approvalFromComments` is not part of the available sources; only its tests in
`src/approval_test.go` are.  The definitions of this section are written from
the specification (sections 3, 4.1 and 4.2) and agree with every case of
`TestApprovalFromComments`, `TestApprovedCommentBody` and
`TestDeniedCommentBody`. -/

/-- An issue comment: the author login and the body text. -/
structure Comment where
  login : Str
  body : Str
deriving DecidableEq

/-- The classification of one comment body. -/
inductive Decision where
  | approve
  | deny
  | neutral
deriving DecidableEq

/-- The status computed from a comment snapshot: `approvalStatusPending`,
`approvalStatusApproved`, `approvalStatusDenied` in the tests. -/
inductive approvalStatus where
  | pending
  | approved
  | denied
deriving DecidableEq

/-- Case folding of a text, letter by letter. -/
def toLower (s : Str) : Str := s.map Char.toLower

/-- Modelled from the spec: the default approval words of the missing
`approval.go` ("approve", "approved", "lgtm", "yes"). -/
def defaultApprovedWords : List Str :=
  ["approve".toList, "approved".toList, "lgtm".toList, "yes".toList]

/-- Modelled from the spec: the default denial words of the missing
`approval.go` ("deny", "denied", "no"). -/
def defaultDeniedWords : List Str :=
  ["deny".toList, "denied".toList, "no".toList]

/-- The trailing punctuation that is stripped: `!` and, as the test
`approved_titlecase_period` requires, `.`. -/
def isTrailingPunct (c : Char) : Bool := c = '!' || c = '.'

/-- A character that the normalisation of a comment body strips from the end:
whitespace (newlines included), `!` or `.`. -/
def isStripped (c : Char) : Bool := isSpace c || isTrailingPunct c

/-- Modelled from the spec: the normalisation of a comment body of the missing
`approval.go`.  The trailing characters of the one set `isStripped` (`!`, `.`,
whitespace and newlines, in any order) are stripped; nothing is stripped at
the start or inside the text, and `?` is never stripped. -/
def normalizeBody (body : Str) : Str :=
  trimRightFunc isStripped body

/-- Modelled from the spec: the word matcher shared by the missing `isApproved`
and `isDenied`.  The body matches when, after normalisation, the case-folded
text equals one of the configured words, or the text equals (case-sensitively)
one of the registered custom words. -/
def matchesWords (words custom : List Str) (body : Str) : Bool :=
  let text := normalizeBody body
  words.contains (toLower text) || custom.contains text

/-- Modelled from the spec: the missing `isApproved` of `approval.go`, with the
default approval words and the registered custom approval words `custom`.
The Go function also returns an error, which is always nil: unmatched text
classifies as not approved and never raises. -/
def isApproved (custom : List Str) (body : Str) : Bool :=
  matchesWords defaultApprovedWords custom body

/-- Modelled from the spec: the missing `isDenied` of `approval.go`, the
symmetric rule with the default denial words and the registered custom denial
words `custom`. -/
def isDenied (custom : List Str) (body : Str) : Bool :=
  matchesWords defaultDeniedWords custom body

/-- The registered custom words of the keyword matcher. -/
structure CustomWords where
  approved : List Str
  denied : List Str

/-- Modelled from the spec: `classify` of the keyword matcher, the decision of
one comment body.  The approval words are tried first. -/
def classify (w : CustomWords) (body : Str) : Decision :=
  if isApproved w.approved body then Decision.approve
  else if isDenied w.denied body then Decision.deny
  else Decision.neutral

/-- Case-insensitive comparison of two logins. -/
def equalFold (a b : Str) : Bool := toLower a = toLower b

/-- Modelled from the spec: step 1 of the quorum evaluator of the missing
`approval.go`.  The comments are walked in chronological order and the most
recent comment of the approver (case-insensitive author match) determines the
decision; an approver without comments is neutral. -/
def latestDecision (w : CustomWords) (comments : List Comment) (approver : Str) : Decision :=
  comments.foldl
    (fun d c => if equalFold c.login approver then classify w c.body else d)
    Decision.neutral

/-- Modelled from the spec: step 4 of the quorum evaluator, the effective
threshold: `minimumApprovals` if positive, else the number of approvers. -/
def effectiveThreshold (approvers : List Str) (minimumApprovals : Int) : Int :=
  if minimumApprovals > 0 then minimumApprovals else (approvers.length : Int)

/-- Modelled from the spec: step 3 of the quorum evaluator, the number of
approvers whose latest decision is an approval. -/
def approveCount (w : CustomWords) (comments : List Comment) (approvers : List Str) : Nat :=
  (approvers.map (latestDecision w comments)).count Decision.approve

/-- Modelled from the spec: the missing `approvalFromComments` of
`approval.go`, the quorum evaluator of section 4.2.  An empty approver list is
a configuration error (`none`); otherwise a denial as the latest decision of
any approver gives `denied`, and else the approvals are counted against the
effective threshold. -/
def approvalFromComments (w : CustomWords) (comments : List Comment) (approvers : List Str)
    (minimumApprovals : Int) : Option approvalStatus :=
  if approvers = [] then none
  else
    let decisions := approvers.map (latestDecision w comments)
    if decisions.contains Decision.deny then some approvalStatus.denied
    else if effectiveThreshold approvers minimumApprovals ≤ (approveCount w comments approvers : Int) then
      some approvalStatus.approved
    else some approvalStatus.pending

/-- The approval criterion with only `!`, whitespace and newlines stripped from
the end of the body (no `.`): the case-folded rest equals a default approval
word, or the rest equals a registered custom word. -/
def approvedStrippingBangOnly (custom : List Str) (body : Str) : Bool :=
  let text := trimRightFunc (fun c => c = '!' || isSpace c) body
  defaultApprovedWords.contains (toLower text) || custom.contains text

/-- The comment `c` is the most recent comment of the approver `a` in the
sequence `C`: it is written by `a` (case-insensitive author match) and no
later comment of `C` is. -/
def LastCommentOf (C : List Comment) (a : Str) (c : Comment) : Prop :=
  ∃ pre post, C = pre ++ c :: post ∧ equalFold c.login a = true ∧
    ∀ d ∈ post, equalFold d.login a = false

/-- The text that remains "after stripping trailing `!`/whitespace/newlines"
(section 4.1), with `.` added to the stripped set, written with the library
`rdropWhile`: the longest trailing run of characters of that one set is
dropped. -/
def specNormalizeBody (body : Str) : Str :=
  body.rdropWhile (fun c => c = '!' || c = '.' || isSpace c)

/-- The text `text` is what remains of `body` after stripping the trailing
characters of the set `strip`: `body` is `text` followed by characters of the
set only, and `text` does not end in a character of the set. -/
def RemainsAfterStripping (strip : Char → Bool) (body text : Str) : Prop :=
  ∃ tail, body = text ++ tail ∧ (∀ c ∈ tail, strip c = true) ∧
    (∀ c ∈ text.getLast?, strip c = false)

/-- The denial criterion in the words of the specification: after the
normalisation `specNormalizeBody`, the case-folded text is a default denial
word, or the text is a registered custom denial word. -/
def specIsDenied (custom : List Str) (body : Str) : Prop :=
  toLower (specNormalizeBody body) ∈ defaultDeniedWords ∨ specNormalizeBody body ∈ custom

/-! ## Issue creation and action outputs

`createApprovalIssue` and `SetActionOutputs` belong to the missing
`approval.go`; the fields of `approvalEnvironment` are those set by
`src/approval_test.go`. -/

/-- The fields of `approvalEnvironment` that `src/approval_test.go` sets (the
tracker client apart). -/
structure approvalEnvironment where
  repoFullName : Str
  repo : Str
  repoOwner : Str
  runID : Int
  approvalIssueNumber : Int
  issueTitle : Str
  issueBody : Str
  issueApprovers : List Str
  minimumApprovals : Int
  issueLabels : List Str
  targetRepoOwner : Str
  targetRepoName : Str

/-- The issue request sent to the tracker.  `Labels` is a pointer to a list in
the tracker client (`*capturedRequest.Labels` in the tests): `none` is the
absent field, `some []` an empty list. -/
structure IssueRequest where
  Title : Str
  Body : Str
  Labels : Option (List Str)

/-- Modelled from the spec: the request built by the missing
`createApprovalIssue` of `approval.go`, for the rendered title and body.  The
labels field is omitted when the configured label list is empty and carries
the configured labels otherwise. -/
def createApprovalIssueRequest (a : approvalEnvironment) (title body : Str) : IssueRequest :=
  { Title := title
    Body := body
    Labels := if a.issueLabels.length > 0 then some a.issueLabels else none }

/-- One line of the output file: the tracking issue number, or another
key/value pair. -/
inductive OutputLine where
  | issueNumber (n : Int)
  | pair (key value : Str)
deriving DecidableEq

/-- The part of the file system that `SetActionOutputs` touches: the files by
path, whether a path can be created, and whether a created file can be
written. -/
structure FileSystem where
  files : Str → Option (List OutputLine)
  canCreate : Str → Bool
  canWrite : Str → Bool

/-- The errors of writing the outputs. -/
inductive OutputError where
  | cannotCreate
  | cannotWrite
deriving DecidableEq

/-- The file system after the file at `path` is replaced by `content`. -/
def FileSystem.put (fs : FileSystem) (path : Str) (content : List OutputLine) : FileSystem :=
  { fs with files := fun q => if q = path then some content else fs.files q }

/-- Modelled from the spec: the missing `SetActionOutputs` of `approval.go`
(`writeOutputs` in section 4.4), for the value `githubOutput` of the
environment variable `GITHUB_OUTPUT` (empty when unset).  Without a destination
nothing is written and the result is `(false, nil)`; a destination that cannot
be created or written gives `(false, err)`; otherwise the file is recreated
with the outputs and the result is `(true, nil)`. -/
def SetActionOutputs (a : approvalEnvironment) (githubOutput : Str)
    (outputs : List (Str × Str)) (fs : FileSystem) :
    (Bool × Option OutputError) × FileSystem :=
  if githubOutput = [] then ((false, none), fs)
  else if fs.canCreate githubOutput = false then
    ((false, some OutputError.cannotCreate), fs)
  else if fs.canWrite githubOutput = false then
    ((false, some OutputError.cannotWrite), fs.put githubOutput [])
  else
    ((true, none),
      fs.put githubOutput
        (OutputLine.issueNumber a.approvalIssueNumber
          :: outputs.map (fun kv => OutputLine.pair kv.1 kv.2)))

/-- The environment of `TestSaveOutput`: issue number 123, run identifier -1,
every other field empty. -/
def saveOutputEnvironment : approvalEnvironment :=
  { repoFullName := [], repo := [], repoOwner := [], runID := -1,
    approvalIssueNumber := 123, issueTitle := [], issueBody := [],
    issueApprovers := [], minimumApprovals := 0, issueLabels := [],
    targetRepoOwner := [], targetRepoName := [] }

/-- A file system without files in which every path can be created and
written, as after the `os.Remove` of `TestSaveOutput`. -/
def emptyFileSystem : FileSystem :=
  { files := fun _ => none, canCreate := fun _ => true, canWrite := fun _ => true }

/-! ## Basic lemmas about trimming -/

theorem trimLeftFunc_eq_dropWhile (f : Char → Bool) (s : Str) :
    trimLeftFunc f s = s.dropWhile f := by
  induction s with
  | nil => rfl
  | cons c cs ih =>
    by_cases h : f c
    · simp [trimLeftFunc, List.dropWhile, h, ih]
    · simp [trimLeftFunc, List.dropWhile, h]

theorem trimRightFunc_eq_rdropWhile (f : Char → Bool) (s : Str) :
    trimRightFunc f s = s.rdropWhile f := by
  simp [trimRightFunc, List.rdropWhile, trimLeftFunc_eq_dropWhile]

theorem trimSpace_eq (s : Str) :
    trimSpace s = (s.dropWhile isSpace).rdropWhile isSpace := by
  simp [trimSpace, trimRightFunc_eq_rdropWhile, trimLeftFunc_eq_dropWhile]

theorem splitComma_ne_nil (s : Str) : splitComma s ≠ [] := by
  induction s with
  | nil => simp [splitComma]
  | cons c cs ih =>
    by_cases h : c = ','
    · simp [splitComma, h]
    · cases hs : splitComma cs with
      | nil => exact absurd hs ih
      | cons p ps => simp [splitComma, h, hs]

theorem splitComma_eq_splitOn (s : Str) : splitComma s = s.splitOn ',' := by
  induction s with
  | nil => simp [splitComma, List.splitOn, List.splitOnP_nil]
  | cons c cs ih =>
    by_cases h : c = ','
    · subst h
      simp [splitComma, List.splitOn, List.splitOnP_cons] at ih ⊢
      exact ih
    · have hne := splitComma_ne_nil cs
      cases hs : splitComma cs with
      | nil => exact absurd hs hne
      | cons p ps =>
        rw [hs] at ih
        simp only [List.splitOn] at ih ⊢
        simp [splitComma, h, hs, List.splitOnP_cons, ← ih, List.modifyHead]

/-! ## The loop of `parseLabels` as a filter over the trimmed pieces -/

theorem foldl_parseLabelsStep (ps acc : List Str) :
    ps.foldl parseLabelsStep acc
      = acc ++ (ps.map trimSpace).filter (fun t => decide (t ≠ [])) := by
  induction ps generalizing acc with
  | nil => simp
  | cons p ps ih =>
    by_cases h : trimSpace p = []
    · simp [List.foldl_cons, parseLabelsStep, h, ih]
    · simp [List.foldl_cons, parseLabelsStep, h, ih]

theorem parseLabelsLoop_eq (s : Str) :
    parseLabelsLoop s
      = ((splitComma s).map trimSpace).filter (fun t => decide (t ≠ [])) := by
  simp [parseLabelsLoop, foldl_parseLabelsStep]

theorem all_of_dropWhile_all (f : Char → Bool) (s : Str)
    (h : ∀ c ∈ s.dropWhile f, f c = true) : ∀ c ∈ s, f c = true := by
  intro c hc
  rw [← List.takeWhile_append_dropWhile f s, List.mem_append] at hc
  rcases hc with hc | hc
  · exact List.mem_takeWhile_imp hc
  · exact h c hc

theorem dropWhile_all (f : Char → Bool) (s : Str) (h : ∀ c ∈ s, f c = true) :
    s.dropWhile f = [] := by
  induction s with
  | nil => rfl
  | cons c cs ih =>
    have hc : f c = true := h c (List.mem_cons_self _ _)
    simp [List.dropWhile, hc, ih (fun x hx => h x (List.mem_cons_of_mem _ hx))]

theorem trimSpace_eq_nil_iff (s : Str) :
    trimSpace s = [] ↔ ∀ c ∈ s, isSpace c = true := by
  rw [trimSpace_eq, List.rdropWhile_eq_nil_iff]
  constructor
  · exact all_of_dropWhile_all isSpace s
  · intro h c hc
    rw [dropWhile_all isSpace s h] at hc
    simp at hc

theorem mem_of_mem_splitComma (s : Str) :
    ∀ p ∈ splitComma s, ∀ c ∈ p, c ∈ s := by
  induction s with
  | nil => simp [splitComma]
  | cons d ds ih =>
    intro p hp c hc
    by_cases h : d = ','
    · simp only [splitComma, h, if_true, List.mem_cons] at hp
      rcases hp with hp | hp
      · subst hp; simp at hc
      · exact List.mem_cons_of_mem _ (ih p hp c hc)
    · cases hs : splitComma ds with
      | nil => exact absurd hs (splitComma_ne_nil ds)
      | cons q qs =>
        simp only [splitComma, h, if_false, hs, List.mem_cons] at hp
        rcases hp with hp | hp
        · subst hp
          rcases List.mem_cons.1 hc with hc | hc
          · subst hc; exact List.mem_cons_self _ _
          · exact List.mem_cons_of_mem _ (ih q (by simp [hs]) c hc)
        · exact List.mem_cons_of_mem _ (ih p (by simp [hs, hp]) c hc)

theorem parseLabelsLoop_blank (s : Str) (h : trimSpace s = []) : parseLabelsLoop s = [] := by
  rw [parseLabelsLoop_eq, List.filter_eq_nil_iff]
  intro t ht
  obtain ⟨p, hp, rfl⟩ := List.mem_map.1 ht
  have hall := (trimSpace_eq_nil_iff s).1 h
  have : trimSpace p = [] :=
    (trimSpace_eq_nil_iff p).2 (fun c hc => hall c (mem_of_mem_splitComma s p hp c hc))
  simp [this]

theorem parseLabels_eq_loop (s : Str) : parseLabels s = parseLabelsLoop s := by
  by_cases h : trimSpace s = []
  · simp [parseLabels, h, parseLabelsLoop_blank s h]
  · simp [parseLabels, h, parseLabelsLoop]

theorem parseLabels_eq_filter (s : Str) :
    parseLabels s
      = ((splitComma s).map trimSpace).filter (fun t => decide (t ≠ [])) := by
  rw [parseLabels_eq_loop, parseLabelsLoop_eq]

/-! ## Trimming a padded label, splitting a joined list -/

theorem head?_dropWhile_not (f : Char → Bool) (s : Str) (c : Char)
    (h : (s.dropWhile f).head? = some c) : f c = false := by
  induction s with
  | nil => simp at h
  | cons d ds ih =>
    by_cases hd : f d = true
    · simp only [List.dropWhile, hd] at h
      exact ih h
    · simp only [List.dropWhile, hd] at h
      simp only [List.head?_cons, Option.some.injEq] at h
      subst h
      simpa using hd

theorem head?_eq_of_initial {l₁ l₂ : Str} (h : l₁ <+: l₂) (hne : l₁ ≠ []) :
    l₁.head? = l₂.head? := by
  obtain ⟨t, rfl⟩ := h
  cases l₁ with
  | nil => exact absurd rfl hne
  | cons a as => rfl

theorem trimSpace_head_not_space (s : Str) (c : Char)
    (h : (trimSpace s).head? = some c) : isSpace c = false := by
  have hne : trimSpace s ≠ [] := by
    intro h0
    rw [h0] at h
    simp at h
  rw [trimSpace_eq] at h hne
  rw [head?_eq_of_initial ( List.rdropWhile_prefix isSpace _) hne] at h
  exact head?_dropWhile_not isSpace s c h

theorem trimSpace_last_not_space (s : Str) (c : Char)
    (h : (trimSpace s).getLast? = some c) : isSpace c = false := by
  have hne : trimSpace s ≠ [] := by
    intro h0
    rw [h0] at h
    simp at h
  rw [trimSpace_eq] at h hne
  have hlast := List.rdropWhile_last_not isSpace (s.dropWhile isSpace) hne
  rw [List.getLast?_eq_getLast _ hne, Option.some.injEq] at h
  rw [h] at hlast
  simpa using hlast

theorem dropWhile_append_all (f : Char → Bool) (pre rest : Str)
    (h : ∀ c ∈ pre, f c = true) : (pre ++ rest).dropWhile f = rest.dropWhile f := by
  induction pre with
  | nil => rfl
  | cons c cs ih =>
    have hc : f c = true := h c (List.mem_cons_self _ _)
    simp only [List.cons_append, List.dropWhile, hc]
    exact ih (fun x hx => h x (List.mem_cons_of_mem _ hx))

theorem dropWhile_of_head_not (f : Char → Bool) (s : Str)
    (h : ∀ c, s.head? = some c → f c = false) : s.dropWhile f = s := by
  cases s with
  | nil => rfl
  | cons c cs =>
    have hc : f c = false := h c rfl
    simp [List.dropWhile, hc]

theorem rdropWhile_append_all (f : Char → Bool) (l post : Str)
    (hpost : ∀ c ∈ post, f c = true) (hlast : ∀ c, l.getLast? = some c → f c = false) :
    (l ++ post).rdropWhile f = l := by
  rw [List.rdropWhile, List.reverse_append,
    dropWhile_append_all f post.reverse l.reverse (fun c hc => hpost c (List.mem_reverse.1 hc)),
    dropWhile_of_head_not f l.reverse (fun c hc => hlast c (by simpa using hc)),
    List.reverse_reverse]

theorem trimSpace_padded (pre l post : Str) (hne : l ≠ [])
    (hpre : ∀ c ∈ pre, isSpace c = true) (hpost : ∀ c ∈ post, isSpace c = true)
    (hhead : ∀ c, l.head? = some c → isSpace c = false)
    (hlast : ∀ c, l.getLast? = some c → isSpace c = false) :
    trimSpace (pre ++ l ++ post) = l := by
  rw [trimSpace_eq, List.append_assoc, dropWhile_append_all isSpace pre _ hpre]
  have h1 : (l ++ post).dropWhile isSpace = l ++ post := by
    cases l with
    | nil => exact absurd rfl hne
    | cons a as =>
      apply dropWhile_of_head_not
      intro c hc
      exact hhead c (by simpa using hc)
  rw [h1, rdropWhile_append_all isSpace l post hpost hlast]

theorem splitComma_append_comma (a b : Str) :
    splitComma (a ++ ',' :: b) = splitComma a ++ splitComma b := by
  induction a with
  | nil => simp [splitComma]
  | cons c cs ih =>
    by_cases h : c = ','
    · simp [splitComma, h, ih]
    · cases hs : splitComma cs with
      | nil => exact absurd hs (splitComma_ne_nil cs)
      | cons p ps =>
        rw [hs] at ih
        simp [splitComma, h, hs, ih]

theorem splitComma_no_comma (a : Str) (h : ',' ∉ a) : splitComma a = [a] := by
  induction a with
  | nil => rfl
  | cons c cs ih =>
    have hc : c ≠ ',' := fun e => h (by simp [e])
    have hcs : ',' ∉ cs := fun e => h (List.mem_cons_of_mem _ e)
    simp [splitComma, hc, ih hcs]

theorem splitComma_joinComma (ps : List Str) (hne : ps ≠ [])
    (h : ∀ p ∈ ps, ',' ∉ p) : splitComma (joinComma ps) = ps := by
  induction ps with
  | nil => exact absurd rfl hne
  | cons p ps ih =>
    cases ps with
    | nil => simpa [joinComma] using splitComma_no_comma p (h p (by simp))
    | cons q qs =>
      rw [joinComma, splitComma_append_comma,
        splitComma_no_comma p (h p (by simp)),
        ih (by simp) (fun x hx => h x (List.mem_cons_of_mem _ hx))]
      rfl

theorem parseLabels_append_comma (a b : Str) :
    parseLabels (a ++ ',' :: b) = parseLabels a ++ parseLabels b := by
  simp [parseLabels_eq_filter, splitComma_append_comma]

/-! ## Label parsing: the claims -/

/-- C1: for every input string, `parseLabels` is the list obtained by splitting
at every comma, trimming leading and trailing whitespace from each piece and
keeping the non-empty trimmed pieces in their original order. -/
theorem parseLabels_eq_spec (s : Str) : parseLabels s = specParseLabels s := by
  rw [parseLabels_eq_filter, specParseLabels, splitComma_eq_splitOn]
  congr 1
  apply List.map_congr_left
  intro p _
  exact trimSpace_eq p

/-- C2: every element of `parseLabels s` is a non-empty string whose first and
last characters are not whitespace. -/
theorem parseLabels_elements_trimmed (s : Str) :
    ∀ l ∈ parseLabels s,
      l ≠ [] ∧ (∀ c ∈ l.head?, isSpace c = false) ∧
        (∀ c ∈ l.getLast?, isSpace c = false) := by
  intro l hl
  rw [parseLabels_eq_filter, List.mem_filter] at hl
  obtain ⟨hmem, hne⟩ := hl
  obtain ⟨p, _, rfl⟩ := List.mem_map.1 hmem
  exact ⟨by simpa using hne, trimSpace_head_not_space p, trimSpace_last_not_space p⟩

/-- Witness for C2: the label `bug` returned for the input `" bug ,x"`. -/
theorem parseLabels_elements_trimmed_witness :
    "bug".toList ≠ [] ∧ (∀ c ∈ "bug".toList.head?, isSpace c = false) ∧
      (∀ c ∈ "bug".toList.getLast?, isSpace c = false) :=
  parseLabels_elements_trimmed " bug ,x".toList "bug".toList (by decide)

theorem comma_not_space_of_all (s : Str) (h : ∀ c ∈ s, isSpace c = true) : ',' ∉ s := by
  intro hmem
  have := h ',' hmem
  revert this
  decide

theorem padded_text_no_comma (p : Padded) (hclean : CleanLabel p.label)
    (hb : ∀ c ∈ p.before, isSpace c = true) (ha : ∀ c ∈ p.after, isSpace c = true) :
    ',' ∉ p.text := by
  simp only [Padded.text, List.mem_append, not_or]
  exact ⟨⟨comma_not_space_of_all _ hb, hclean.2.1⟩, comma_not_space_of_all _ ha⟩

/-- C3: parsing undoes joining.  For every list of padded labels whose labels
are non-empty, comma-free and without leading or trailing whitespace, and
whose paddings are whitespace only, `parseLabels` of the padded texts joined
with commas is exactly the list of labels, in order. -/
theorem parseLabels_joinComma_padded (items : List Padded)
    (hclean : ∀ p ∈ items, CleanLabel p.label)
    (hpad : ∀ p ∈ items,
      (∀ c ∈ p.before, isSpace c = true) ∧ (∀ c ∈ p.after, isSpace c = true)) :
    parseLabels (joinComma (items.map Padded.text)) = items.map Padded.label := by
  cases hitems : items with
  | nil => simp [joinComma, parseLabels, trimSpace, trimRightFunc, trimLeftFunc]
  | cons q qs =>
    rw [← hitems, parseLabels_eq_filter,
      splitComma_joinComma (items.map Padded.text) (by simp [hitems])]
    · rw [List.map_map]
      have hmap : items.map (trimSpace ∘ Padded.text) = items.map Padded.label := by
        apply List.map_congr_left
        intro p hp
        obtain ⟨hne, _, hhead, hlast⟩ := hclean p hp
        exact trimSpace_padded p.before p.label p.after hne (hpad p hp).1 (hpad p hp).2
          hhead hlast
      rw [hmap, List.filter_eq_self]
      intro l hl
      obtain ⟨p, hp, rfl⟩ := List.mem_map.1 hl
      simpa using (hclean p hp).1
    · intro t ht
      obtain ⟨p, hp, rfl⟩ := List.mem_map.1 ht
      exact padded_text_no_comma p (hclean p hp) (hpad p hp).1 (hpad p hp).2

/-- Witness for C3: the padded input `"  bug  ,  enhancement  ,  help wanted  "`. -/
theorem parseLabels_joinComma_padded_witness :
    parseLabels "  bug  ,  enhancement  ,  help wanted  ".toList
      = ["bug".toList, "enhancement".toList, "help wanted".toList] :=
  parseLabels_joinComma_padded
    [⟨"  ".toList, "bug".toList, "  ".toList⟩,
     ⟨"  ".toList, "enhancement".toList, "  ".toList⟩,
     ⟨"  ".toList, "help wanted".toList, "  ".toList⟩]
    (by decide) (by decide)

/-- C4: `parseLabels` of the empty string is the empty list, and so is
`parseLabels` of every string that consists of whitespace characters only. -/
theorem parseLabels_blank (s : Str) (h : ∀ c ∈ s, isSpace c = true) :
    parseLabels [] = [] ∧ parseLabels s = [] := by
  refine ⟨by simp [parseLabels, trimSpace, trimRightFunc, trimLeftFunc], ?_⟩
  simp [parseLabels, (trimSpace_eq_nil_iff s).2 h]

/-- Witness for C4: a string of two spaces, a tab and a newline. -/
theorem parseLabels_blank_witness :
    parseLabels [] = [] ∧ parseLabels "  \t\n".toList = [] :=
  parseLabels_blank "  \t\n".toList (by decide)

/-- C5: consecutive commas produce no entries: a doubled comma parses like a
single one, and `"bug,,enhancement"` parses to `["bug", "enhancement"]`. -/
theorem parseLabels_double_comma (a b : Str) :
    parseLabels (a ++ [',', ','] ++ b) = parseLabels (a ++ [','] ++ b) ∧
      parseLabels "bug,,enhancement".toList = ["bug".toList, "enhancement".toList] := by
  refine ⟨?_, by decide⟩
  have h1 : a ++ [',', ','] ++ b = a ++ ',' :: ([] ++ ',' :: b) := by simp
  have h2 : a ++ [','] ++ b = a ++ ',' :: b := by simp
  have h3 : parseLabels [] = [] := by decide
  rw [h1, h2, parseLabels_append_comma, parseLabels_append_comma, parseLabels_append_comma, h3]
  simp

/-! ## Quorum evaluator -/

theorem foldl_latest_no_match (w : CustomWords) (a : Str) (post : List Comment) (d : Decision)
    (h : ∀ c ∈ post, equalFold c.login a = false) :
    post.foldl (fun d c => if equalFold c.login a then classify w c.body else d) d = d := by
  induction post generalizing d with
  | nil => rfl
  | cons c cs ih =>
    have hc : equalFold c.login a = false := h c (List.mem_cons_self _ _)
    simp only [List.foldl_cons, hc]
    exact ih d (fun x hx => h x (List.mem_cons_of_mem _ hx))

theorem latestDecision_append_cons (w : CustomWords) (a : Str) (pre post : List Comment)
    (c : Comment) :
    latestDecision w (pre ++ c :: post) a
      = post.foldl (fun d c => if equalFold c.login a then classify w c.body else d)
          (if equalFold c.login a then classify w c.body else latestDecision w pre a) := by
  simp [latestDecision, List.foldl_append]

theorem latestDecision_append (w : CustomWords) (a : Str) (pre post : List Comment) :
    latestDecision w (pre ++ post) a
      = post.foldl (fun d c => if equalFold c.login a then classify w c.body else d)
          (latestDecision w pre a) := by
  simp [latestDecision, List.foldl_append]

theorem latestDecision_of_last (w : CustomWords) (C : List Comment) (a : Str) (c : Comment)
    (h : LastCommentOf C a c) : latestDecision w C a = classify w c.body := by
  obtain ⟨pre, post, rfl, hc, hpost⟩ := h
  rw [latestDecision_append_cons, foldl_latest_no_match w a post _ hpost]
  simp [hc]

theorem approvalFromComments_congr (w : CustomWords) (C D : List Comment) (A : List Str)
    (m : Int) (h : ∀ a ∈ A, latestDecision w C a = latestDecision w D a) :
    approvalFromComments w C A m = approvalFromComments w D A m := by
  have hmap : A.map (latestDecision w C) = A.map (latestDecision w D) :=
    List.map_congr_left h
  simp only [approvalFromComments, approveCount, hmap]

theorem approveCount_eq_countP (w : CustomWords) (C : List Comment) (A : List Str) :
    approveCount w C A = A.countP (fun a => decide (latestDecision w C a = Decision.approve)) := by
  induction A with
  | nil => rfl
  | cons a as ih =>
    simp only [approveCount] at ih
    by_cases h : latestDecision w C a = Decision.approve
    · simp [approveCount, List.countP_cons, h, ih]
    · simp [approveCount, List.countP_cons, h, ih, List.count_cons]

/-- C6: denial is an unconditional veto.  If some approver of the list has a
most recent comment classified as a denial, `approvalFromComments` returns
`denied`, whatever the minimum number of approvals and the other comments. -/
theorem denial_is_veto (w : CustomWords) (C : List Comment) (A : List Str) (m : Int)
    (a : Str) (c : Comment) (ha : a ∈ A) (hlast : LastCommentOf C a c)
    (hdeny : classify w c.body = Decision.deny) :
    approvalFromComments w C A m = some approvalStatus.denied := by
  have hA : A ≠ [] := List.ne_nil_of_mem ha
  have hd : latestDecision w C a = Decision.deny := by
    rw [latestDecision_of_last w C a c hlast, hdeny]
  have hmem : Decision.deny ∈ A.map (latestDecision w C) :=
    List.mem_map.2 ⟨a, ha, hd⟩
  simp [approvalFromComments, hA, hmem]

/-- Witness for C6: the test case `multi_approver_denied`, with a minimum of one
approval. -/
theorem denial_is_veto_witness :
    approvalFromComments ⟨[], []⟩
        [⟨"login1".toList, "Denied".toList⟩, ⟨"login2".toList, "Approved".toList⟩]
        ["login1".toList, "login2".toList] 1
      = some approvalStatus.denied :=
  denial_is_veto ⟨[], []⟩ _ _ 1 "login1".toList ⟨"login1".toList, "Denied".toList⟩
    (by decide)
    ⟨[], [⟨"login2".toList, "Approved".toList⟩], rfl, by decide, by decide⟩
    (by decide)

/-- C7: a later comment of an approver overrides an earlier one.  The latest
decision of an approver is the classification of that approver's last comment
in the sequence; so two comments of `x`, the second one an approval, with the
single approver `x` and `minimumApprovals` 0, give `approved` whatever the
first comment says (a denial or neutral text). -/
theorem later_comment_overrides (w : CustomWords) (C : List Comment) (a : Str) (c : Comment)
    (hlast : LastCommentOf C a c) (x earlier ap : Str)
    (hap : classify w ap = Decision.approve) :
    latestDecision w C a = classify w c.body ∧
      approvalFromComments w [⟨x, earlier⟩, ⟨x, ap⟩] [x] 0 = some approvalStatus.approved := by
  refine ⟨latestDecision_of_last w C a c hlast, ?_⟩
  have hx : equalFold x x = true := by simp [equalFold]
  have hl : latestDecision w [⟨x, earlier⟩, ⟨x, ap⟩] x = Decision.approve := by
    simp [latestDecision, hx, hap]
  simp [approvalFromComments, approveCount, effectiveThreshold, hl]

/-- Witness for C7: a denial of `login1` followed by an approval of `login1`. -/
theorem later_comment_overrides_witness :
    latestDecision ⟨[], []⟩
        [⟨"login1".toList, "Denied".toList⟩, ⟨"login1".toList, "Approved".toList⟩]
        "login1".toList
      = classify ⟨[], []⟩ "Approved".toList ∧
    approvalFromComments ⟨[], []⟩
        [⟨"login1".toList, "Denied".toList⟩, ⟨"login1".toList, "Approved".toList⟩]
        ["login1".toList] 0
      = some approvalStatus.approved :=
  later_comment_overrides ⟨[], []⟩
    [⟨"login1".toList, "Denied".toList⟩, ⟨"login1".toList, "Approved".toList⟩]
    "login1".toList ⟨"login1".toList, "Approved".toList⟩
    ⟨[⟨"login1".toList, "Denied".toList⟩], [], rfl, by decide, by decide⟩
    "login1".toList "Denied".toList "Approved".toList (by decide)

/-- C8: quorum threshold.  For a non-empty approver list, comments in which no
approver's latest decision is a denial, and `minimumApprovals ≥ 0`, the result
is `approved` when the number of approvers whose latest decision is an
approval reaches the effective threshold (`minimumApprovals` if positive, else
the number of approvers), and `pending` otherwise. -/
theorem quorum_threshold (w : CustomWords) (C : List Comment) (A : List Str) (m : Int)
    (hA : A ≠ []) (hno : ∀ a ∈ A, latestDecision w C a ≠ Decision.deny) (_hm : 0 ≤ m) :
    approvalFromComments w C A m
      = if (if m > 0 then m else (A.length : Int))
            ≤ (A.countP (fun a => decide (latestDecision w C a = Decision.approve)) : Int)
        then some approvalStatus.approved else some approvalStatus.pending := by
  have hmem : Decision.deny ∉ A.map (latestDecision w C) := by
    intro h
    obtain ⟨a, ha, hd⟩ := List.mem_map.1 h
    exact hno a ha hd
  have hc : (A.map (latestDecision w C)).contains Decision.deny = false := by
    simpa using hmem
  simp only [approvalFromComments, hA, if_false, hc, effectiveThreshold,
    approveCount_eq_countP]
  simp

/-- Witness for C8: the test case `multi_approver_minimum_two_approvals`. -/
theorem quorum_threshold_witness :
    approvalFromComments ⟨[], []⟩
        [⟨"login1".toList, "Approved".toList⟩, ⟨"login2".toList, "Approved".toList⟩]
        ["login1".toList, "login2".toList, "login3".toList] 2
      = if (if (2 : Int) > 0 then (2 : Int)
              else ((["login1".toList, "login2".toList, "login3".toList] : List Str).length : Int))
            ≤ ((["login1".toList, "login2".toList, "login3".toList] : List Str).countP
                (fun a => decide (latestDecision ⟨[], []⟩
                  [⟨"login1".toList, "Approved".toList⟩, ⟨"login2".toList, "Approved".toList⟩] a
                    = Decision.approve)) : Int)
        then some approvalStatus.approved else some approvalStatus.pending :=
  quorum_threshold ⟨[], []⟩ _ _ 2 (by decide) (by decide) (by decide)

theorem equalFold_congr_left (x y a : Str) (h : toLower x = toLower y) :
    equalFold x a = equalFold y a := by
  simp [equalFold, h]

/-- C9: author matching is case-insensitive and comments of non-approvers are
ignored.  Replacing the login of a comment by another letter-casing of the
same login does not change `approvalFromComments`, and neither does inserting
(or removing) a comment whose author matches no approver. -/
theorem author_matching (w : CustomWords) (pre post : List Comment) (A : List Str) (m : Int)
    (c : Comment) (recased : Str) (hcase : toLower recased = toLower c.login)
    (d : Comment) (hd : ∀ a ∈ A, equalFold d.login a = false) :
    approvalFromComments w (pre ++ ⟨recased, c.body⟩ :: post) A m
        = approvalFromComments w (pre ++ c :: post) A m ∧
      approvalFromComments w (pre ++ d :: post) A m
        = approvalFromComments w (pre ++ post) A m := by
  constructor
  · apply approvalFromComments_congr
    intro a _
    rw [latestDecision_append_cons, latestDecision_append_cons,
      equalFold_congr_left recased c.login a hcase]
  · apply approvalFromComments_congr
    intro a ha
    rw [latestDecision_append_cons, latestDecision_append, hd a ha]
    simp

/-- Witness for C9: the approver `login1` commenting as `LOGIN1`, and a comment
of the non-approver `stranger`. -/
theorem author_matching_witness :
    approvalFromComments ⟨[], []⟩
        ([] ++ ⟨"LOGIN1".toList, "Approved".toList⟩ :: []) ["login1".toList] 0
        = approvalFromComments ⟨[], []⟩
            ([] ++ ⟨"login1".toList, "Approved".toList⟩ :: []) ["login1".toList] 0 ∧
      approvalFromComments ⟨[], []⟩
        ([] ++ ⟨"stranger".toList, "Denied".toList⟩ :: []) ["login1".toList] 0
        = approvalFromComments ⟨[], []⟩ ([] ++ []) ["login1".toList] 0 :=
  author_matching ⟨[], []⟩ [] [] ["login1".toList] 0
    ⟨"login1".toList, "Approved".toList⟩ "LOGIN1".toList (by decide)
    ⟨"stranger".toList, "Denied".toList⟩ (by decide)

/-! ## Keyword matcher -/

theorem isStripped_eq : isStripped = fun c => (c = '!' || c = '.' || isSpace c) := by
  funext c
  simp only [isStripped, isTrailingPunct]
  cases isSpace c <;> cases decide (c = '!') <;> cases decide (c = '.') <;> rfl

theorem normalizeBody_eq_spec (b : Str) : normalizeBody b = specNormalizeBody b := by
  simp only [normalizeBody, specNormalizeBody, trimRightFunc_eq_rdropWhile, isStripped_eq]

theorem rdropWhile_append_tail (f : Char → Bool) (l : Str) :
    ∃ tail, l = l.rdropWhile f ++ tail ∧ ∀ c ∈ tail, f c = true := by
  refine ⟨(l.reverse.takeWhile f).reverse, ?_, ?_⟩
  · have h := List.takeWhile_append_dropWhile f l.reverse
    have h2 := congrArg List.reverse h
    rw [List.reverse_append, List.reverse_reverse] at h2
    rw [List.rdropWhile]
    exact h2.symm
  · intro c hc
    exact List.mem_takeWhile_imp (List.mem_reverse.1 hc)

theorem remainsAfterStripping_iff (f : Char → Bool) (body text : Str) :
    RemainsAfterStripping f body text ↔ text = body.rdropWhile f := by
  constructor
  · rintro ⟨tail, rfl, htail, hlast⟩
    exact (rdropWhile_append_all f text tail htail hlast).symm
  · rintro rfl
    obtain ⟨tail, h1, h2⟩ := rdropWhile_append_tail f body
    refine ⟨tail, h1, h2, ?_⟩
    intro c hc
    have hne : body.rdropWhile f ≠ [] := by
      intro h0
      rw [h0] at hc
      simp at hc
    have hl := List.rdropWhile_last_not f body hne
    rw [List.getLast?_eq_getLast _ hne] at hc
    have hc1 : (List.rdropWhile f body).getLast hne = c := by simpa using hc
    rw [hc1] at hl
    simpa using hl

theorem rdropWhile_congr_mem (f g : Char → Bool) (l : Str) (h : ∀ c ∈ l, f c = g c) :
    l.rdropWhile f = l.rdropWhile g := by
  have hd : ∀ (r : Str), (∀ c ∈ r, f c = g c) → r.dropWhile f = r.dropWhile g := by
    intro r
    induction r with
    | nil => intro _; rfl
    | cons c cs ih =>
      intro hr
      have hc : f c = g c := hr c (List.mem_cons_self _ _)
      have ih1 := ih (fun x hx => hr x (List.mem_cons_of_mem _ hx))
      simp only [List.dropWhile, hc, ih1]
  rw [List.rdropWhile, List.rdropWhile, hd l.reverse (fun c hc => h c (List.mem_reverse.1 hc))]

/-- C10, as stated, fails: the body `"Approved."` is approved (test case
`approved_titlecase_period`), although after stripping only trailing `!`,
whitespace and newlines the case-folded text `"approved."` is no approval
word. -/
theorem isApproved_bang_only_counterexample :
    ¬ ∀ (custom : List Str) (b : Str),
        isApproved custom b = true ↔ approvedStrippingBangOnly custom b = true := by
  intro h
  have h1 : isApproved [] "Approved.".toList = true := by decide
  have h2 : approvedStrippingBangOnly [] "Approved.".toList = false := by decide
  rw [(h [] "Approved.".toList).1 h1] at h2
  exact Bool.noConfusion h2

/-- C10, amended: `isApproved b` is true if and only if, after stripping
trailing `!` and `.` characters, whitespace and newlines (one trailing
character set, the claim's set with `.` added), the case-folded remaining text
equals one of the default approval words or the remaining text equals a
registered custom approval word.  The remaining text is stated declaratively:
the body is that text followed by stripped characters only, and the text does
not end in one.  On every body without a `.` the result is the claim's own
criterion, and a body that contains an approval word inside a longer sentence
is not approved. -/
theorem isApproved_iff (custom : List Str) (b : Str) :
    (isApproved custom b = true ↔
        ∃ text, RemainsAfterStripping (fun c => c = '!' || c = '.' || isSpace c) b text ∧
          (toLower text ∈ defaultApprovedWords ∨ text ∈ custom)) ∧
      (isApproved custom b = true ↔
        (toLower (specNormalizeBody b) ∈ defaultApprovedWords ∨
          specNormalizeBody b ∈ custom)) ∧
      ('.' ∉ b → isApproved custom b = approvedStrippingBangOnly custom b) ∧
      isApproved custom "should i approve this".toList
        = decide ("should i approve this".toList ∈ custom) := by
  have hspec : isApproved custom b = true ↔
      (toLower (specNormalizeBody b) ∈ defaultApprovedWords ∨
        specNormalizeBody b ∈ custom) := by
    simp [isApproved, matchesWords, normalizeBody_eq_spec]
  refine ⟨?_, hspec, ?_, ?_⟩
  · rw [hspec]
    constructor
    · intro h
      exact ⟨specNormalizeBody b, (remainsAfterStripping_iff _ b _).2 rfl, h⟩
    · rintro ⟨text, hrem, h⟩
      have ht : text = specNormalizeBody b := (remainsAfterStripping_iff _ b text).1 hrem
      rw [← ht]
      exact h
  · intro hdot
    have hcongr : normalizeBody b = trimRightFunc (fun c => c = '!' || isSpace c) b := by
      rw [normalizeBody_eq_spec, specNormalizeBody, trimRightFunc_eq_rdropWhile]
      apply rdropWhile_congr_mem
      intro c hc
      have hne : c ≠ '.' := fun e => hdot (e ▸ hc)
      simp [hne]
    simp only [isApproved, matchesWords, approvedStrippingBangOnly, hcongr]
  · have hn : normalizeBody "should i approve this".toList = "should i approve this".toList := by
      decide
    have hd : defaultApprovedWords.contains (toLower "should i approve this".toList) = false := by
      decide
    simp only [isApproved, matchesWords, hn, hd, Bool.false_or]
    simp

/-! ## Label parsing: pieces, commas and joining -/

theorem comma_not_mem_splitComma (s : Str) : ∀ p ∈ splitComma s, ',' ∉ p := by
  induction s with
  | nil => simp [splitComma]
  | cons d ds ih =>
    intro p hp
    by_cases h : d = ','
    · simp only [splitComma, h, if_true, List.mem_cons] at hp
      rcases hp with hp | hp
      · subst hp; simp
      · exact ih p hp
    · cases hs : splitComma ds with
      | nil => exact absurd hs (splitComma_ne_nil ds)
      | cons q qs =>
        simp only [splitComma, h, if_false, hs, List.mem_cons] at hp
        rcases hp with hp | hp
        · subst hp
          intro hmem
          rcases List.mem_cons.1 hmem with e | e
          · exact h e.symm
          · exact ih q (by simp [hs]) e
        · exact ih p (by simp [hs, hp])

theorem length_splitComma (s : Str) : (splitComma s).length = s.count ',' + 1 := by
  induction s with
  | nil => rfl
  | cons d ds ih =>
    by_cases h : d = ','
    · subst h
      simp [splitComma, ih]
    · cases hs : splitComma ds with
      | nil => exact absurd hs (splitComma_ne_nil ds)
      | cons q qs =>
        rw [hs] at ih
        have hd : (d == ',') = false := by simpa using h
        simp only [splitComma, h, if_false, hs, List.length_cons, List.count_cons, hd] at ih ⊢
        simpa using ih

theorem exists_piece_of_mem (s : Str) (c : Char) (hc : c ∈ s) (hne : c ≠ ',') :
    ∃ p ∈ splitComma s, c ∈ p := by
  induction s with
  | nil => simp at hc
  | cons d ds ih =>
    by_cases h : d = ','
    · rcases List.mem_cons.1 hc with e | e
      · exact absurd (e.trans h) hne
      · obtain ⟨p, hp, hcp⟩ := ih e
        exact ⟨p, by simp [splitComma, h, hp], hcp⟩
    · cases hs : splitComma ds with
      | nil => exact absurd hs (splitComma_ne_nil ds)
      | cons q qs =>
        rcases List.mem_cons.1 hc with e | e
        · exact ⟨d :: q, by simp [splitComma, h, hs], by simp [e]⟩
        · obtain ⟨p, hp, hcp⟩ := ih e
          rw [hs] at hp
          rcases List.mem_cons.1 hp with hp | hp
          · subst hp
            exact ⟨d :: p, by simp [splitComma, h, hs], List.mem_cons_of_mem _ hcp⟩
          · exact ⟨p, by simp [splitComma, h, hs, hp], hcp⟩

theorem mem_of_mem_trimSpace (p : Str) (c : Char) (hc : c ∈ trimSpace p) : c ∈ p := by
  rw [trimSpace_eq] at hc
  have h1 : c ∈ p.dropWhile isSpace :=
    ( List.rdropWhile_prefix isSpace _).subset hc
  exact ( List.dropWhile_suffix isSpace).subset h1

theorem cleanLabel_of_mem_parseLabels (s : Str) (l : Str) (hl : l ∈ parseLabels s) :
    CleanLabel l := by
  rw [parseLabels_eq_filter, List.mem_filter] at hl
  obtain ⟨hmem, hne⟩ := hl
  obtain ⟨p, hp, rfl⟩ := List.mem_map.1 hmem
  refine ⟨by simpa using hne, ?_, trimSpace_head_not_space p, trimSpace_last_not_space p⟩
  intro hcomma
  exact comma_not_mem_splitComma s p hp (mem_of_mem_trimSpace p ',' hcomma)

theorem trimSpace_clean (l : Str) (h : CleanLabel l) : trimSpace l = l := by
  have := trimSpace_padded [] l [] h.1 (by simp) (by simp) h.2.2.1 h.2.2.2
  simpa using this

theorem parseLabels_joinComma_clean (L : List Str) (h : ∀ l ∈ L, CleanLabel l) :
    parseLabels (joinComma L) = L := by
  cases hL : L with
  | nil => decide
  | cons q qs =>
    rw [← hL, parseLabels_eq_filter, splitComma_joinComma L (by simp [hL])
      (fun l hl => (h l hl).2.1)]
    have hmap : L.map trimSpace = L := by
      conv_rhs => rw [← List.map_id L]
      apply List.map_congr_left
      intro l hl
      simpa using trimSpace_clean l (h l hl)
    rw [hmap, List.filter_eq_self]
    intro l hl
    simpa using (h l hl).1

/-- C16: `parseLabels` distributes over comma-concatenation:
`parseLabels (a ++ "," ++ b) = parseLabels a ++ parseLabels b` for all strings
`a` and `b`, empty or whitespace-only parts included. -/
theorem parseLabels_comma_concat (a b : Str) :
    parseLabels (a ++ [','] ++ b) = parseLabels a ++ parseLabels b := by
  have h : a ++ [','] ++ b = a ++ ',' :: b := by simp
  rw [h, parseLabels_append_comma]

/-- C17: the early return of `parseLabels` for blank input is redundant: the
function equals the split-trim-filter loop run without the guard. -/
theorem parseLabels_guard_redundant (s : Str) : parseLabels s = parseLabelsLoop s := by
  by_cases h : trimSpace s = []
  · rw [parseLabelsLoop_blank s h]
    simp [parseLabels, h]
  · simp [parseLabels, h, parseLabelsLoop]

/-- C18: `parseLabels` is idempotent through joining: parsing the comma-joined
result of a parse gives the same list. -/
theorem parseLabels_joinComma_parseLabels (s : Str) :
    parseLabels (joinComma (parseLabels s)) = parseLabels s :=
  parseLabels_joinComma_clean (parseLabels s) (cleanLabel_of_mem_parseLabels s)

/-- C19: `parseLabels s` is the empty list if and only if every character of
`s` is a comma or a whitespace character. -/
theorem parseLabels_eq_nil_iff (s : Str) :
    parseLabels s = [] ↔ ∀ c ∈ s, c = ',' ∨ isSpace c = true := by
  rw [parseLabels_eq_filter, List.filter_eq_nil_iff]
  constructor
  · intro h c hc
    by_cases hcomma : c = ','
    · exact Or.inl hcomma
    · right
      obtain ⟨p, hp, hcp⟩ := exists_piece_of_mem s c hc hcomma
      have ht : trimSpace p = [] := by
        simpa using h (trimSpace p) (List.mem_map_of_mem _ hp)
      exact (trimSpace_eq_nil_iff p).1 ht c hcp
  · intro h t ht
    obtain ⟨p, hp, rfl⟩ := List.mem_map.1 ht
    have hall : ∀ c ∈ p, isSpace c = true := by
      intro c hcp
      rcases h c (mem_of_mem_splitComma s p hp c hcp) with e | e
      · subst e
        exact absurd hcp (comma_not_mem_splitComma s p hp)
      · exact e
    simp [(trimSpace_eq_nil_iff p).2 hall]

/-- C20: no element of `parseLabels s` contains a comma, and the number of
elements is at most one more than the number of commas in `s`. -/
theorem parseLabels_no_comma_and_length (s : Str) :
    (∀ l ∈ parseLabels s, ',' ∉ l) ∧ (parseLabels s).length ≤ s.count ',' + 1 := by
  constructor
  · intro l hl
    exact (cleanLabel_of_mem_parseLabels s l hl).2.1
  · rw [parseLabels_eq_filter, ← length_splitComma s]
    calc (List.filter (fun t => decide (t ≠ [])) ((splitComma s).map trimSpace)).length
        ≤ ((splitComma s).map trimSpace).length := List.length_filter_le _ _
      _ = (splitComma s).length := List.length_map _ _

/-! ## Keyword matcher: what is stripped and what is not -/

theorem rdropWhile_concat_question (f : Char → Bool) (w : Str) (hf : f '?' = false) :
    (w ++ ['?']).rdropWhile f = w ++ ['?'] :=
  List.rdropWhile_concat_neg f w '?' (by simp [hf])

theorem normalizeBody_question (w : Str) : normalizeBody (w ++ ['?']) = w ++ ['?'] := by
  rw [normalizeBody_eq_spec, specNormalizeBody,
    rdropWhile_concat_question _ w (by decide)]

theorem toLower_question_not_mem (words : List Str) (w : Str)
    (hwords : ∀ x ∈ words, x.getLast? ≠ some '?') : toLower (w ++ ['?']) ∉ words := by
  intro h
  apply hwords _ h
  simp [toLower]

theorem matchesWords_question (words custom : List Str) (w : Str)
    (hwords : ∀ x ∈ words, x.getLast? ≠ some '?') (hcustom : w ++ ['?'] ∉ custom) :
    matchesWords words custom (w ++ ['?']) = false := by
  have h1 := toLower_question_not_mem words w hwords
  simp [matchesWords, normalizeBody_question, h1, hcustom]

/-- C11: a trailing question mark is never stripped.  For every word `w` and
`d` (the approval and denial words in any letter case among them),
`isApproved (w ++ "?")` and `isDenied (d ++ "?")` are false, with the default
words alone and with any registered custom words that do not contain the
question-marked text itself; so `"Approved?"` and `"Deny?"` are neither an
approval nor a denial. -/
theorem question_mark_not_stripped (w d : Str) (customApproved customDenied : List Str)
    (hA : w ++ ['?'] ∉ customApproved) (hD : d ++ ['?'] ∉ customDenied) :
    normalizeBody (w ++ ['?']) = w ++ ['?'] ∧
      (isApproved [] (w ++ ['?']) = false ∧ isDenied [] (d ++ ['?']) = false) ∧
      (isApproved customApproved (w ++ ['?']) = false ∧
        isDenied customDenied (d ++ ['?']) = false) ∧
      (isApproved [] "Approved?".toList = false ∧ isDenied [] "Deny?".toList = false) := by
  refine ⟨normalizeBody_question w, ⟨?_, ?_⟩, ⟨?_, ?_⟩, by decide, by decide⟩
  · exact matchesWords_question defaultApprovedWords [] w (by decide) (by simp)
  · exact matchesWords_question defaultDeniedWords [] d (by decide) (by simp)
  · exact matchesWords_question defaultApprovedWords customApproved w (by decide) hA
  · exact matchesWords_question defaultDeniedWords customDenied d (by decide) hD

/-- Witness for C11: the words `LGTM` and `no` with the custom words `shipit`
and `naw` registered. -/
theorem question_mark_not_stripped_witness :
    normalizeBody ("LGTM".toList ++ ['?']) = "LGTM".toList ++ ['?'] ∧
      (isApproved [] ("LGTM".toList ++ ['?']) = false ∧
        isDenied [] ("no".toList ++ ['?']) = false) ∧
      (isApproved ["shipit".toList] ("LGTM".toList ++ ['?']) = false ∧
        isDenied ["naw".toList] ("no".toList ++ ['?']) = false) ∧
      (isApproved [] "Approved?".toList = false ∧ isDenied [] "Deny?".toList = false) :=
  question_mark_not_stripped "LGTM".toList "no".toList ["shipit".toList] ["naw".toList]
    (by decide) (by decide)

theorem toLower_of_isStripped (c : Char) (h : isStripped c = true) : c.toLower = c := by
  have hn : ¬ (c.toNat ≥ 65 ∧ c.toNat ≤ 90) := by
    rintro ⟨h1, h2⟩
    simp only [isStripped, isSpace, isTrailingPunct, Bool.or_eq_true, decide_eq_true_eq] at h
    rcases h with h | h
    · split at h
      · simp only [Bool.or_eq_true, decide_eq_true_eq] at h
        omega
      · omega
    · rcases h with h | h
      · subst h
        revert h1
        decide
      · subst h
        revert h1
        decide
  simp [Char.toLower, hn]

theorem last_not_stripped_of_toLower (w x : Str) (hx : toLower w = x)
    (hlast : ∀ c ∈ x.getLast?, isStripped c = false) :
    ∀ c ∈ w.getLast?, isStripped c = false := by
  intro c hc
  by_contra hs
  have hs1 : isStripped c = true := by simpa using hs
  have hmap : x.getLast? = some c.toLower := by
    rw [← hx, toLower, List.getLast?_map]
    simp [Option.mem_def.1 hc]
  rw [toLower_of_isStripped c hs1] at hmap
  rw [hlast c hmap] at hs1
  exact Bool.noConfusion hs1

theorem normalizeBody_strip (core tail : Str)
    (hcore : ∀ c ∈ core.getLast?, isStripped c = false)
    (htail : ∀ c ∈ tail, isStripped c = true) :
    normalizeBody (core ++ tail) = core := by
  rw [normalizeBody, trimRightFunc_eq_rdropWhile]
  exact rdropWhile_append_all isStripped core tail htail hcore

theorem matchesWords_with_trailing (words custom : List Str) (w tail : Str)
    (hwords : ∀ x ∈ words, ∀ c ∈ x.getLast?, isStripped c = false)
    (hw : toLower w ∈ words ∨ (w ∈ custom ∧ ∀ c ∈ w.getLast?, isStripped c = false))
    (htail : ∀ c ∈ tail, isStripped c = true) :
    matchesWords words custom (w ++ tail) = true := by
  rcases hw with hw | ⟨hw, hlast⟩
  · have hl := last_not_stripped_of_toLower w _ rfl (hwords _ hw)
    simp only [matchesWords]
    rw [normalizeBody_strip w tail hl htail]
    simp [hw]
  · simp only [matchesWords]
    rw [normalizeBody_strip w tail hlast htail]
    simp [hw]

/-- A default approval word in any letter case, or a registered custom word
that does not end in `!`, `.` or whitespace, followed by a run of `.` and `!`
characters, a run of newlines and a run of whitespace, is approved. -/
theorem isApproved_with_trailing (custom : List Str) (w p n t : Str)
    (hw : toLower w ∈ defaultApprovedWords ∨
      (w ∈ custom ∧ ∀ c ∈ w.getLast?, isStripped c = false))
    (hp : ∀ c ∈ p, c = '.' ∨ c = '!') (hn : ∀ c ∈ n, c = '\n')
    (ht : ∀ c ∈ t, isSpace c = true) :
    isApproved custom (w ++ p ++ n ++ t) = true := by
  have htail : ∀ c ∈ p ++ (n ++ t), isStripped c = true := by
    intro c hc
    rcases List.mem_append.1 hc with e | e
    · rcases hp c e with e1 | e1 <;> subst e1 <;> decide
    · rcases List.mem_append.1 e with e1 | e1
      · rw [hn c e1]
        decide
      · simp [isStripped, ht c e1]
  have := matchesWords_with_trailing defaultApprovedWords custom w (p ++ (n ++ t))
    (by decide) hw htail
  simpa [isApproved, List.append_assoc] using this

/-- C13: denial matching is symmetric to approval matching.  `isDenied b` is
true if and only if `b`, after the normalisation that `isApproved` uses,
equals a default denial word (compared case-insensitively) or a registered
custom denial word; a body that contains a denial word inside a longer
sentence is not a denial. -/
theorem isDenied_iff (customApproved customDenied : List Str) (b : Str) :
    (isDenied customDenied b = true ↔ specIsDenied customDenied b) ∧
      (isApproved customApproved b = true ↔
        (toLower (specNormalizeBody b) ∈ defaultApprovedWords ∨
          specNormalizeBody b ∈ customApproved)) ∧
      isDenied customDenied "should i deny this".toList
        = decide ("should i deny this".toList ∈ customDenied) := by
  refine ⟨?_, ?_, ?_⟩
  · simp [isDenied, matchesWords, normalizeBody_eq_spec, specIsDenied]
  · simp [isApproved, matchesWords, normalizeBody_eq_spec]
  · have hn : normalizeBody "should i deny this".toList = "should i deny this".toList := by
      decide
    have hd : defaultDeniedWords.contains (toLower "should i deny this".toList) = false := by
      decide
    simp only [isDenied, matchesWords, hn, hd, Bool.false_or]
    simp

/-! ## Issue creation and action outputs -/

/-- C14: the labels field of the issue request is absent (not an empty list)
exactly when the configured label list is empty, and otherwise it carries the
configured labels in their configured order. -/
theorem createApprovalIssueRequest_labels (a : approvalEnvironment) (title body : Str) :
    ((createApprovalIssueRequest a title body).Labels = none ↔ a.issueLabels = []) ∧
      (∀ ls, (createApprovalIssueRequest a title body).Labels = some ls ↔
        (a.issueLabels ≠ [] ∧ ls = a.issueLabels)) := by
  cases h : a.issueLabels with
  | nil => simp [createApprovalIssueRequest, h]
  | cons l ls =>
    simp only [createApprovalIssueRequest, h, List.length_cons]
    constructor
    · simp
    · intro ks
      simp [eq_comm]

/-- C15: `SetActionOutputs` returns `(false, nil)` when no destination is
configured, returns `(true, nil)` with the destination file existing
afterwards when a destination that can be created and written is configured,
and returns an error only when a destination is configured but cannot be
created or written (then with `false`). -/
theorem SetActionOutputs_result (a : approvalEnvironment) (outputs : List (Str × Str))
    (fs : FileSystem) (path : Str) (hpath : path ≠ [])
    (hc : fs.canCreate path = true) (hw : fs.canWrite path = true) :
    SetActionOutputs a [] outputs fs = ((false, none), fs) ∧
      (SetActionOutputs a path outputs fs).1 = (true, none) ∧
      ((SetActionOutputs a path outputs fs).2.files path).isSome = true ∧
      (∀ (q : Str) (fs₁ : FileSystem), (SetActionOutputs a q outputs fs₁).1.2 ≠ none →
        (SetActionOutputs a q outputs fs₁).1.1 = false ∧ q ≠ [] ∧
          (fs₁.canCreate q = false ∨ fs₁.canWrite q = false)) := by
  refine ⟨by simp [SetActionOutputs], ?_, ?_, ?_⟩
  · simp [SetActionOutputs, hpath, hc, hw]
  · simp [SetActionOutputs, hpath, hc, hw, FileSystem.put]
  · intro q fs₁ herr
    by_cases hq : q = []
    · simp [SetActionOutputs, hq] at herr
    · by_cases h1 : fs₁.canCreate q = false
      · simp [SetActionOutputs, hq, h1]
      · by_cases h2 : fs₁.canWrite q = false
        · simp [SetActionOutputs, hq, h1, h2]
        · simp [SetActionOutputs, hq, h1, h2] at herr

/-- Witness for C15: the test case `save_output_with_env`, destination
`./output.txt`. -/
theorem SetActionOutputs_result_witness :
    (SetActionOutputs saveOutputEnvironment "./output.txt".toList [] emptyFileSystem).1
        = (true, none) ∧
      ((SetActionOutputs saveOutputEnvironment "./output.txt".toList [] emptyFileSystem).2.files
        "./output.txt".toList).isSome = true :=
  let h := SetActionOutputs_result saveOutputEnvironment [] emptyFileSystem
    "./output.txt".toList (by decide) (by rfl) (by rfl)
  ⟨h.2.1, h.2.2.1⟩

end ManualApproval
